import Mathlib

/-!
Shallow embedding of the `veryl-lang/discovery` tracker (src/db.rs, src/utils.rs).

External collaborators (GitHub API, git, the compiler binary, the filesystem
walk) are modelled as oracles/parameters; compiler invocations are recorded in
an explicit trace so that claims about which commands run can be stated.
Rust strings are modelled as `List Char` (so that all operations compute),
`u64` counts and ids as `Nat` (no arithmetic is performed on them, so overflow
is irrelevant); panics (`unwrap`, `unreachable!`) are modelled as `Option.none`.
-/

/-- Rust `String`/`str`, modelled as a character list. -/
abbrev Str : Type := List Char

/-- Rust `str::ends_with`. -/
def strEndsWith (s suff : Str) : Bool :=
  s.reverse.take suff.length = suff.reverse

/-- Rust `str::starts_with`. -/
def strStartsWith (s pre : Str) : Bool :=
  s.take pre.length = pre

/-- Semantic version, modelling the `semver::Version` values used by the code
(major.minor.patch; no tracked release uses pre-release/build metadata). -/
structure SemVer where
  major : Nat
  minor : Nat
  patch : Nat
deriving DecidableEq, Repr

/-- Value of a decimal digit character. -/
def digitVal (c : Char) : Option Nat :=
  if '0' ≤ c ∧ c ≤ '9' then some (c.toNat - '0'.toNat) else none

/-- Accumulating decimal parse over digit characters. -/
def parseNatAux : Str → Nat → Option Nat
  | [], acc => some acc
  | c :: rest, acc =>
    match digitVal c with
    | none => none
    | some d => parseNatAux rest (acc * 10 + d)

/-- Parse a non-empty all-digit character list as a `Nat`. -/
def parseNatChars : Str → Option Nat
  | [] => none
  | c :: rest => parseNatAux (c :: rest) 0

/-- Split a character list on `.` separators. -/
def splitDotAux : Str → Str → List Str
  | [], acc => [acc.reverse]
  | c :: rest, acc =>
    if c = '.' then acc.reverse :: splitDotAux rest []
    else splitDotAux rest (c :: acc)

/-- `str::split('.')` as used for version parsing. -/
def splitDot (s : Str) : List Str := splitDotAux s []

/-- Model of the external `semver::Version::parse`: strict
`major.minor.patch` with numeric components, `none` on anything else. -/
def parseSemVer (s : Str) : Option SemVer :=
  match splitDot s with
  | [a, b, c] =>
    match parseNatChars a, parseNatChars b, parseNatChars c with
    | some x, some y, some z => some ⟨x, y, z⟩
    | _, _, _ => none
  | _ => none

/-- Release asset platforms, from `Platform` in src/db.rs. -/
inductive Platform where
  | aarch64Linux
  | aarch64Mac
  | aarch64Windows
  | x86_64Linux
  | x86_64Mac
  | x86_64Windows
deriving DecidableEq, Repr

/-- Per-platform download counts: a finite map `HashMap<Platform, u64>`,
modelled as one optional count per platform. -/
structure PlatCounts where
  aarch64Linux : Option Nat := none
  aarch64Mac : Option Nat := none
  aarch64Windows : Option Nat := none
  x86_64Linux : Option Nat := none
  x86_64Mac : Option Nat := none
  x86_64Windows : Option Nat := none
deriving DecidableEq, Repr

/-- `HashMap::insert` on the per-platform count map. -/
def insertCount (c : PlatCounts) (p : Platform) (n : Nat) : PlatCounts :=
  match p with
  | .aarch64Linux => { c with aarch64Linux := some n }
  | .aarch64Mac => { c with aarch64Mac := some n }
  | .aarch64Windows => { c with aarch64Windows := some n }
  | .x86_64Linux => { c with x86_64Linux := some n }
  | .x86_64Mac => { c with x86_64Mac := some n }
  | .x86_64Windows => { c with x86_64Windows := some n }

/-- `Download` in src/db.rs: a dated sample of per-platform counts.
Dates are opaque timestamps, modelled as `Nat`. -/
structure Download where
  date : Nat
  counts : PlatCounts
deriving DecidableEq, Repr

/-- `GithubReleaseAsset` in src/db.rs. -/
structure GithubReleaseAsset where
  name : Str
  download_count : Nat

/-- `GithubRelease` in src/db.rs. -/
structure GithubRelease where
  name : Str
  assets : List GithubReleaseAsset

/-- One per-track download-history map:
`HashMap<Version, Vec<Download>>` in src/db.rs. -/
def DlMap : Type := SemVer → Option (List Download)

/-- Point update of a download-history map. -/
def setDl (m : DlMap) (v : SemVer) (xs : List Download) : DlMap :=
  fun k => if k = v then some xs else m k

/-- The asset-suffix classification chain from `Db::push_release`
(src/db.rs lines 90-105); the final `unreachable!()` is `none`. -/
def classifyAsset (name : Str) : Option Platform :=
  if strEndsWith name "x86_64-linux.zip".data then some .x86_64Linux
  else if strEndsWith name "x86_64-mac.zip".data then some .x86_64Mac
  else if strEndsWith name "x86_64-windows.zip".data then some .x86_64Windows
  else if strEndsWith name "aarch64-linux.zip".data then some .aarch64Linux
  else if strEndsWith name "aarch64-mac.zip".data then some .aarch64Mac
  else if strEndsWith name "aarch64-windows.zip".data then some .aarch64Windows
  else none

/-- The per-release asset loop of `Db::push_release`: classify every asset and
insert its count; an unclassifiable asset aborts (models `unreachable!()`). -/
def assetCounts : List GithubReleaseAsset → PlatCounts → Option PlatCounts
  | [], acc => some acc
  | a :: rest, acc =>
    match classifyAsset a.name with
    | none => none
    | some p => assetCounts rest (insertCount acc p a.download_count)

/-- `release.name.strip_prefix("v")`: `none` models the `unwrap` panic. -/
def stripTagV (s : Str) : Option Str :=
  if strStartsWith s "v".data then some (s.drop 1) else none

/-- The `entry(version).and_modify(..).or_insert(vec![download])` merge step
of `Db::push_release` (src/db.rs lines 111-132): first sample creates the key;
otherwise the sample is appended only when its counts differ from the last
stored sample. `none` models the `x.last().unwrap()` panic on an empty
stored sequence. -/
def pushOne (m : DlMap) (v : SemVer) (d : Download) : Option DlMap :=
  match m v with
  | none => some (setDl m v [d])
  | some xs =>
    match xs.getLast? with
    | none => none
    | some lastd =>
      if lastd.counts = d.counts then some m
      else some (setDl m v (xs ++ [d]))

/-- The body of `Db::push_release`'s loop for one release: strip the tag
marker and parse the version (panic on failure), classify the assets (panic
on an unknown suffix), then apply the merge step. -/
def pushOneRelease (date : Nat) (r : GithubRelease) (m : DlMap) : Option DlMap :=
  match (stripTagV r.name).bind parseSemVer with
  | none => none
  | some v =>
    match assetCounts r.assets {} with
    | none => none
    | some counts => pushOne m v ⟨date, counts⟩

/-- The release loop of `Db::push_release` over one track's map. -/
def pushReleaseList (date : Nat) : List GithubRelease → DlMap → Option DlMap
  | [], m => some m
  | r :: rest, m =>
    match pushOneRelease date r m with
    | none => none
    | some m2 => pushReleaseList date rest m2

/-- `ReleaseKind` in src/db.rs: the two distribution tracks. -/
inductive ReleaseKind where
  | veryl
  | verylup
deriving DecidableEq

/-- `BuildLog` in src/db.rs. -/
structure BuildLog where
  rev : Str
  veryl_version : SemVer
  result : Bool
deriving DecidableEq, Repr

/-- `Project` in src/db.rs; canonical URLs are opaque identifiers. -/
structure Project where
  url : Str
  build_logs : List BuildLog
deriving DecidableEq, Repr

/-- `Discovered` in src/db.rs. -/
structure Discovered where
  date : Nat
  sources : Nat
  projects : List Nat

/-- `Db` in src/db.rs. `projects : HashMap<u64, Project>` is modelled as an
association list with unique keys. -/
structure Db where
  discovered : List Discovered
  projects : List (Nat × Project)
  veryl_downloads : DlMap
  verylup_downloads : DlMap

/-- The download-history map of a given track. -/
def trackMap (k : ReleaseKind) (db : Db) : DlMap :=
  match k with
  | .veryl => db.veryl_downloads
  | .verylup => db.verylup_downloads

/-- `Db::push_release` (src/db.rs lines 81-134): record one batch of releases
into the selected track's map; `none` models any panic along the way. -/
def push_release (db : Db) (releases : List GithubRelease) (kind : ReleaseKind)
    (date : Nat) : Option Db :=
  match kind with
  | .veryl =>
    (pushReleaseList date releases db.veryl_downloads).map
      (fun m => { db with veryl_downloads := m })
  | .verylup =>
    (pushReleaseList date releases db.verylup_downloads).map
      (fun m => { db with verylup_downloads := m })

/-- All stored download-history values are non-empty sequences. -/
def dlInv (m : DlMap) : Prop :=
  ∀ v xs, m v = some xs → xs ≠ []

/-- C2: the DownloadHistory merge rule (src/db.rs lines 111-132): for any key,
the first sample creates a singleton history; a later sample is appended
exactly when its count mapping differs from the immediately preceding sample;
hence pushing the same count mapping twice onto a fresh key leaves exactly the
one-sample history. -/
theorem c2_download_merge_rule (m : DlMap) (v : SemVer) (d : Download) :
    (m v = none → pushOne m v d = some (setDl m v [d])) ∧
    (∀ xs lastd, m v = some xs → xs.getLast? = some lastd →
      pushOne m v d =
        if lastd.counts = d.counts then some m
        else some (setDl m v (xs ++ [d]))) ∧
    (∀ d2, m v = none → d2.counts = d.counts →
      (pushOne m v d).bind (fun m2 => pushOne m2 v d2) = some (setDl m v [d])) := by
  refine ⟨?_, ?_, ?_⟩
  · intro h
    simp [pushOne, h]
  · intro xs lastd hxs hlast
    simp [pushOne, hxs, hlast]
  · intro d2 h hcounts
    simp only [pushOne, h, Option.some_bind]
    have hv : setDl m v [d] v = some [d] := by simp [setDl]
    simp [hv, hcounts, setDl]

/-- Witness for C2 at a concrete map, key and samples. -/
theorem c2_download_merge_rule_witness :
    (pushOne (fun _ => none) ⟨0, 5, 0⟩ ⟨7, { x86_64Linux := some 3 }⟩).bind
        (fun m2 => pushOne m2 ⟨0, 5, 0⟩ ⟨9, { x86_64Linux := some 3 }⟩) =
      some (setDl (fun _ => none) ⟨0, 5, 0⟩ [⟨7, { x86_64Linux := some 3 }⟩]) :=
  (c2_download_merge_rule (fun _ => none) ⟨0, 5, 0⟩
      ⟨7, { x86_64Linux := some 3 }⟩).2.2
    ⟨9, { x86_64Linux := some 3 }⟩ rfl rfl

/-- C10: non-emptiness of stored download histories is an invariant: the merge
step either creates a one-sample history or appends to an existing one, so
under the invariant the `last()` read always succeeds (the step never hits the
`none` panic branch), and the release loop preserves the invariant. -/
theorem c10_download_histories_nonempty :
    (∀ m v d, dlInv m → ∃ m2, pushOne m v d = some m2 ∧ dlInv m2) ∧
    (∀ date rs m m2, dlInv m → pushReleaseList date rs m = some m2 → dlInv m2) := by
  have hstep : ∀ m v d, dlInv m → ∃ m2, pushOne m v d = some m2 ∧ dlInv m2 := by
    intro m v d hinv
    cases hmv : m v with
    | none =>
      refine ⟨setDl m v [d], by simp [pushOne, hmv], ?_⟩
      intro w xs hw
      by_cases hwv : w = v
      · subst hwv
        simp [setDl] at hw
        simp [← hw]
      · simp [setDl, hwv] at hw
        exact hinv w xs hw
    | some xs =>
      have hne : xs ≠ [] := hinv v xs hmv
      have hlast : ∃ lastd, xs.getLast? = some lastd := by
        cases h : xs.getLast? with
        | none => exact absurd (List.getLast?_eq_none_iff.mp h) hne
        | some lastd => exact ⟨lastd, rfl⟩
      obtain ⟨lastd, hlast⟩ := hlast
      by_cases hc : lastd.counts = d.counts
      · exact ⟨m, by simp [pushOne, hmv, hlast, hc], hinv⟩
      · refine ⟨setDl m v (xs ++ [d]), by simp [pushOne, hmv, hlast, hc], ?_⟩
        intro w ys hw
        by_cases hwv : w = v
        · subst hwv
          simp [setDl] at hw
          simp [← hw]
        · simp [setDl, hwv] at hw
          exact hinv w ys hw
  have hrel : ∀ date r m m1, dlInv m → pushOneRelease date r m = some m1 →
      dlInv m1 := by
    intro date r m m1 hinv h
    simp only [pushOneRelease] at h
    cases hparse : (stripTagV r.name).bind parseSemVer with
    | none =>
      simp only [hparse] at h
      exact Option.noConfusion h
    | some v =>
      simp only [hparse] at h
      cases hcnt : assetCounts r.assets {} with
      | none =>
        simp only [hcnt] at h
        exact Option.noConfusion h
      | some counts =>
        simp only [hcnt] at h
        obtain ⟨m2, hm2, hinv2⟩ := hstep m v ⟨date, counts⟩ hinv
        rw [hm2] at h
        injection h with h2
        exact h2 ▸ hinv2
  refine ⟨hstep, ?_⟩
  intro date rs
  induction rs with
  | nil =>
    intro m m2 hinv h
    simp [pushReleaseList] at h
    exact h ▸ hinv
  | cons r rest ih =>
    intro m m2 hinv h
    simp only [pushReleaseList] at h
    cases hr0 : pushOneRelease date r m with
    | none =>
      simp only [hr0] at h
      exact Option.noConfusion h
    | some m1 =>
      simp only [hr0] at h
      exact ih m1 m2 (hrel date r m m1 hinv hr0) h

/-- Witness for C10 at a concrete map and sample. -/
theorem c10_download_histories_nonempty_witness :
    (∃ m2, pushOne (fun _ => none) ⟨0, 5, 0⟩ ⟨7, {}⟩ = some m2 ∧ dlInv m2) ∧
    dlInv (fun _ => none) :=
  ⟨c10_download_histories_nonempty.1 (fun _ => none) ⟨0, 5, 0⟩ ⟨7, {}⟩
      (fun _ _ h => absurd h (by simp)),
    fun _ _ h => absurd h (by simp)⟩

/-- An unclassifiable asset makes the whole asset loop abort. -/
theorem assetCounts_none {assets : List GithubReleaseAsset}
    {a : GithubReleaseAsset} (ha : a ∈ assets)
    (hbad : classifyAsset a.name = none) :
    ∀ acc, assetCounts assets acc = none := by
  induction assets with
  | nil => cases ha
  | cons b rest ih =>
    intro acc
    rcases List.mem_cons.mp ha with h | h
    · subst h
      simp only [assetCounts, hbad]
    · cases hb : classifyAsset b.name with
      | none => simp only [assetCounts, hb]
      | some p =>
        simp only [assetCounts, hb]
        exact ih h _

/-- C7: upstream contract violations are fatal for the whole batch: a release
whose tag does not strip-and-parse as a semantic version, or a release
carrying an asset whose filename suffix matches no platform-table entry,
makes `push_release`'s loop abort (`none`, modelling the panic) rather than
skip the offending item. -/
theorem c7_contract_violation_fatal (date : Nat) (rs : List GithubRelease)
    (m : DlMap) (r : GithubRelease) (hr : r ∈ rs) :
    ((stripTagV r.name).bind parseSemVer = none →
      pushReleaseList date rs m = none) ∧
    (∀ a, a ∈ r.assets → classifyAsset a.name = none →
      pushReleaseList date rs m = none) := by
  have hbody1 : ∀ m0, (stripTagV r.name).bind parseSemVer = none →
      pushOneRelease date r m0 = none := by
    intro m0 hbad
    simp only [pushOneRelease, hbad]
  have hbody2 : ∀ m0 a, a ∈ r.assets → classifyAsset a.name = none →
      pushOneRelease date r m0 = none := by
    intro m0 a ha hbad
    simp only [pushOneRelease]
    cases hparse : (stripTagV r.name).bind parseSemVer with
    | none => rfl
    | some v => simp only [assetCounts_none ha hbad]
  induction rs generalizing m with
  | nil => cases hr
  | cons r0 rest ih =>
    rcases List.mem_cons.mp hr with h | h
    · subst h
      constructor
      · intro hbad
        simp only [pushReleaseList, hbody1 m hbad]
      · intro a ha hbad
        simp only [pushReleaseList, hbody2 m a ha hbad]
    · constructor
      · intro hbad
        simp only [pushReleaseList]
        cases hr0 : pushOneRelease date r0 m with
        | none => rfl
        | some m2 => exact (ih h (m := m2)).1 hbad
      · intro a ha hbad
        simp only [pushReleaseList]
        cases hr0 : pushOneRelease date r0 m with
        | none => rfl
        | some m2 => exact (ih h (m := m2)).2 a ha hbad

/-- Witness for C7: a tag without the leading `v` marker aborts the batch. -/
theorem c7_contract_violation_fatal_witness :
    pushReleaseList 0 [⟨"1.0.0".data, []⟩] (fun _ => none) = none :=
  (c7_contract_violation_fatal 0 [⟨"1.0.0".data, []⟩] (fun _ => none)
      ⟨"1.0.0".data, []⟩ (List.mem_singleton.mpr rfl)).1 (by decide)

/-- `HashMap::insert` on the project registry: replace the entry with an
equal key, else add a new entry. -/
def insertKV : List (Nat × Project) → Nat → Project → List (Nat × Project)
  | [], k, v => [(k, v)]
  | (k0, v0) :: rest, k, v =>
    if k0 = k then (k, v) :: rest else (k0, v0) :: insertKV rest k v

/-- `Db::find_project` (src/db.rs lines 146-153): linear scan for an entry
with the given URL. -/
def find_project : List (Nat × Project) → Str → Option Nat
  | [], _ => none
  | (i, p) :: rest, url => if p.url = url then some i else find_project rest url

/-- `Db::insert_project` (src/db.rs lines 136-144): find-or-create by URL;
a new project gets `id = self.projects.len()`. -/
def insert_project (ps : List (Nat × Project)) (prj : Project) :
    Nat × List (Nat × Project) :=
  match find_project ps prj.url with
  | some id => (id, ps)
  | none => (ps.length, insertKV ps ps.length prj)

/-- Looking up a fresh URL after `insertKV` finds exactly the new entry. -/
theorem find_project_insertKV (ps : List (Nat × Project)) (prj : Project)
    (k : Nat) (hnone : find_project ps prj.url = none) :
    find_project (insertKV ps k prj) prj.url = some k := by
  induction ps with
  | nil => simp [insertKV, find_project]
  | cons kv rest ih =>
    obtain ⟨k0, v0⟩ := kv
    simp only [find_project] at hnone
    by_cases hurl : v0.url = prj.url
    · simp [hurl] at hnone
    · simp only [hurl, if_false] at hnone
      simp only [insertKV]
      by_cases hk : k0 = k
      · simp [hk, find_project]
      · simp [hk, find_project, hurl, ih hnone]

/-- C3: `insert_project` is find-or-create on canonical URLs: when the URL is
already registered it returns the existing id and leaves the registry
untouched; when the URL is new the assigned id equals the current registry
size; and re-inserting the same URL returns the same id again without
changing the registry. -/
theorem c3_insert_project_find_or_create (ps : List (Nat × Project))
    (prj : Project) :
    (∀ i, find_project ps prj.url = some i → insert_project ps prj = (i, ps)) ∧
    (find_project ps prj.url = none →
      (insert_project ps prj).1 = ps.length) ∧
    (∀ prj2, prj2.url = prj.url →
      insert_project (insert_project ps prj).2 prj2 =
        ((insert_project ps prj).1, (insert_project ps prj).2)) := by
  refine ⟨?_, ?_, ?_⟩
  · intro i h
    simp [insert_project, h]
  · intro h
    simp [insert_project, h]
  · intro prj2 hurl
    cases hfind : find_project ps prj.url with
    | some i =>
      simp only [insert_project, hfind]
      rw [hurl, hfind]
    | none =>
      simp only [insert_project, hfind]
      rw [hurl, find_project_insertKV ps prj ps.length hfind]

/-- Witness for C3: inserting the same URL twice into an empty registry
yields id 0 both times and a one-entry registry. -/
theorem c3_insert_project_find_or_create_witness :
    insert_project (insert_project [] ⟨"https://github.com/a/b".data, []⟩).2
        ⟨"https://github.com/a/b".data, []⟩ =
      ((insert_project [] ⟨"https://github.com/a/b".data, []⟩).1,
        (insert_project [] ⟨"https://github.com/a/b".data, []⟩).2) ∧
    (insert_project [] (⟨"https://github.com/a/b".data, []⟩ : Project)).1 = 0 :=
  ⟨(c3_insert_project_find_or_create [] ⟨"https://github.com/a/b".data, []⟩).2.2
      ⟨"https://github.com/a/b".data, []⟩ rfl,
    (c3_insert_project_find_or_create [] ⟨"https://github.com/a/b".data, []⟩).2.1 rfl⟩

/-- A compiler invocation made through the `veryl` binary: either a build
(`[+version-arg] build [--check]`, run in some build root) or a migrate
pinned to an unstable minor version (`+0.{minor} migrate`). -/
inductive Cmd where
  | build (root : Str) (versionArg : Option Str) (check : Bool)
  | migrateTo (root : Str) (minor : Nat)
deriving DecidableEq, Repr

/-- The external compiler, modelled as an oracle giving each invocation's
success status as a function of the invocations already performed (so that a
migrate can change the outcome of a later build). -/
def Exec : Type := List Cmd → Cmd → Bool

/-- Run one command: consult the oracle and extend the trace. -/
def runCmd (ex : Exec) (tr : List Cmd) (c : Cmd) : Bool × List Cmd :=
  (ex tr c, tr ++ [c])

/-- `VerylBuildInfo` in src/utils.rs (the opaque binary path is dropped; the
build root is the `current_dir` of the invocations). -/
structure VerylBuildInfo where
  version : SemVer
  veryl_root : Str
  version_arg : Option Str
  compare : Bool

/-- The backward-probe loop of `migrate` (src/utils.rs lines 50-65): try
`+0.{minor} migrate` for minor, minor-1, ... down to 1, stopping at the
first success; returns the found minor (the loop's exit state). -/
def probeDown (ex : Exec) (root : Str) : Nat → List Cmd → Option Nat × List Cmd
  | 0, tr => (none, tr)
  | m + 1, tr =>
    let (ok, tr2) := runCmd ex tr (.migrateTo root (m + 1))
    if ok then (some (m + 1), tr2) else probeDown ex root m tr2

/-- The forward-replay loop of `migrate` (src/utils.rs lines 67-79): run
`+0.{minor} migrate` for minor = k, k+1, ... while `version.minor >= minor`,
ignoring each step's status. -/
def replayUp (ex : Exec) (root : Str) (m : Nat) (minor : Nat) (tr : List Cmd) :
    List Cmd :=
  if minor ≤ m then
    let (_, tr2) := runCmd ex tr (.migrateTo root minor)
    replayUp ex root m (minor + 1) tr2
  else tr
termination_by m + 1 - minor
decreasing_by omega

/-- `migrate` in src/utils.rs (lines 46-83): only for major version 0; probe
backward for a working migrate anchor, and on success replay forward up
through the current minor. -/
def migrate (ex : Exec) (version : SemVer) (root : Str) (tr : List Cmd) :
    List Cmd :=
  if version.major = 0 then
    match probeDown ex root version.minor tr with
    | (some k, tr2) => replayUp ex root version.minor k tr2
    | (none, tr2) => tr2
  else tr

/-- `veryl_build` in src/utils.rs (lines 14-44): build once; on failure mark
migrated, run `migrate`, and rebuild once with the same arguments. Returns
(authoritative result, migrated flag, trace). -/
def veryl_build (ex : Exec) (info : VerylBuildInfo) (migrated : Bool)
    (tr : List Cmd) : Bool × Bool × List Cmd :=
  let bc := Cmd.build info.veryl_root info.version_arg info.compare
  let (ok, tr2) := runCmd ex tr bc
  if ok then (ok, migrated, tr2)
  else
    let tr3 := migrate ex info.version info.veryl_root tr2
    let (ok2, tr4) := runCmd ex tr3 bc
    (ok2, true, tr4)

/-- The command sequence of a backward probe from minor `m` down to `k`:
`migrate` pinned to m, m-1, ..., k. -/
def probeSeq (root : Str) (m k : Nat) : List Cmd :=
  ((List.range' k (m + 1 - k)).reverse).map (Cmd.migrateTo root)

/-- The command sequence of a forward replay from minor `k` up to `m`:
`migrate` pinned to k, k+1, ..., m, one adjacent step at a time. -/
def replaySeq (root : Str) (k m : Nat) : List Cmd :=
  (List.range' k (m + 1 - k)).map (Cmd.migrateTo root)

/-- The forward-replay loop emits exactly the ascending migrate sequence. -/
theorem replayUp_eq (ex : Exec) (root : Str) (m : Nat) :
    ∀ d minor tr, m + 1 - minor = d →
      replayUp ex root m minor tr = tr ++ (List.range' minor d).map (Cmd.migrateTo root) := by
  intro d
  induction d with
  | zero =>
    intro minor tr h
    rw [replayUp]
    have hgt : ¬ minor ≤ m := by omega
    simp [hgt]
  | succ n ih =>
    intro minor tr h
    rw [replayUp]
    have hle : minor ≤ m := by omega
    simp only [hle, if_true, runCmd]
    rw [ih (minor + 1) _ (by omega), List.range'_succ]
    simp

/-- Under an oracle whose migrate outcomes depend only on the pinned minor
(failing above `k`, succeeding at `k`), the backward probe stops at `k` and
emits exactly the descending migrate sequence. -/
theorem probeDown_eq (ex : Exec) (root : Str) (k : Nat)
    (hk : ∀ tr2, ex tr2 (Cmd.migrateTo root k) = true)
    (hhi : ∀ tr2 j, k < j → ex tr2 (Cmd.migrateTo root j) = false) :
    ∀ m tr, k ≤ m → 1 ≤ k →
      probeDown ex root m tr = (some k, tr ++ probeSeq root m k) := by
  intro m
  induction m with
  | zero => intro tr hkm hk1; omega
  | succ m2 ih =>
    intro tr hkm hk1
    by_cases heq : k = m2 + 1
    · subst heq
      simp only [probeDown, runCmd, hk, if_true, probeSeq]
      simp [List.range'_succ]
    · have hlt : k < m2 + 1 := by omega
      simp only [probeDown, runCmd, hhi tr (m2 + 1) hlt, if_false]
      rw [ih (tr ++ [Cmd.migrateTo root (m2 + 1)]) (by omega) hk1]
      simp only [probeSeq]
      rw [show m2 + 1 + 1 - k = (m2 + 1 - k) + 1 by omega, List.range'_concat]
      simp only [List.reverse_append, List.reverse_cons, List.reverse_nil,
        List.nil_append, List.map, List.map_append, List.singleton_append]
      rw [show k + 1 * (m2 + 1 - k) = m2 + 1 by omega]
      simp [List.append_assoc]

/-- C5: for a failing build under an unstable compiler `0.M.p`, with migrate
succeeding exactly at pinned minors up to `K` (1 ≤ K ≤ M): the prober first
invokes migrate pinned to M, M-1, ..., K (stopping at the first success K),
then replays migrate pinned to K, K+1, ..., M exactly once per adjacent step
in increasing order, and attempts the final rebuild exactly once; the whole
trace is pinned down. -/
theorem c5_probe_and_replay (ex : Exec) (info : VerylBuildInfo)
    (migrated : Bool) (tr : List Cmd) (k : Nat)
    (hmaj : info.version.major = 0)
    (hk1 : 1 ≤ k) (hkm : k ≤ info.version.minor)
    (hfail : ex tr (Cmd.build info.veryl_root info.version_arg info.compare) = false)
    (hmigk : ∀ tr2, ex tr2 (Cmd.migrateTo info.veryl_root k) = true)
    (hmighi : ∀ tr2 j, k < j → ex tr2 (Cmd.migrateTo info.veryl_root j) = false) :
    veryl_build ex info migrated tr =
      (ex (tr ++ [Cmd.build info.veryl_root info.version_arg info.compare]
            ++ probeSeq info.veryl_root info.version.minor k
            ++ replaySeq info.veryl_root k info.version.minor)
          (Cmd.build info.veryl_root info.version_arg info.compare),
        true,
        tr ++ [Cmd.build info.veryl_root info.version_arg info.compare]
          ++ probeSeq info.veryl_root info.version.minor k
          ++ replaySeq info.veryl_root k info.version.minor
          ++ [Cmd.build info.veryl_root info.version_arg info.compare]) := by
  have hprobe := probeDown_eq ex info.veryl_root k hmigk hmighi info.version.minor
    (tr ++ [Cmd.build info.veryl_root info.version_arg info.compare]) hkm hk1
  have hreplay := replayUp_eq ex info.veryl_root info.version.minor
    (info.version.minor + 1 - k) k
    (tr ++ [Cmd.build info.veryl_root info.version_arg info.compare]
      ++ probeSeq info.veryl_root info.version.minor k) rfl
  simp only [veryl_build, runCmd, hfail, migrate, hmaj, if_true, if_false,
    Bool.false_eq_true, hprobe, hreplay, replaySeq]

/-- Witness for C5: compiler 0.3.0, migrate succeeds only at pinned minors
at most 2, initial build fails: probe 3, 2 then replay 2, 3 and one rebuild. -/
theorem c5_probe_and_replay_witness :
    veryl_build
        (fun _ c => match c with
          | .build _ _ _ => false
          | .migrateTo _ j => decide (j ≤ 2))
        ⟨⟨0, 3, 0⟩, "r".data, none, false⟩ false [] =
      (false, true,
        [Cmd.build "r".data none false,
          Cmd.migrateTo "r".data 3, Cmd.migrateTo "r".data 2,
          Cmd.migrateTo "r".data 2, Cmd.migrateTo "r".data 3,
          Cmd.build "r".data none false]) := by
  have h := c5_probe_and_replay
    (fun _ c => match c with
      | .build _ _ _ => false
      | .migrateTo _ j => decide (j ≤ 2))
    ⟨⟨0, 3, 0⟩, "r".data, none, false⟩ false [] 2
    rfl (by decide) (by decide) rfl (fun _ => rfl)
    (fun _ j hj => by simp; omega)
  rw [h]
  rfl

/-- When every pinned migrate fails, the backward probe scans all the way
down and reports failure. -/
theorem probeDown_none (ex : Exec) (root : Str)
    (hfailall : ∀ tr2 j, 0 < j → ex tr2 (Cmd.migrateTo root j) = false) :
    ∀ m tr, probeDown ex root m tr = (none, tr ++ probeSeq root m 1) := by
  intro m
  induction m with
  | zero => intro tr; simp [probeDown, probeSeq]
  | succ m2 ih =>
    intro tr
    simp only [probeDown, runCmd, hfailall tr (m2 + 1) (by omega),
      Bool.false_eq_true, if_false]
    rw [ih (tr ++ [Cmd.migrateTo root (m2 + 1)])]
    simp only [probeSeq]
    rw [show m2 + 1 + 1 - 1 = (m2 + 1 - 1) + 1 by omega, List.range'_concat]
    simp only [List.reverse_append, List.reverse_cons, List.reverse_nil,
      List.nil_append, List.map, List.map_append, List.singleton_append]
    rw [show 1 + 1 * (m2 + 1 - 1) = m2 + 1 by omega]
    simp [List.append_assoc]

/-- C6: when a build fails there is no migration escape in two situations,
and the original failure stands as the final result. (a) Under a compiler
with major version at least 1 the prober never invokes migrate: the trace
gains exactly the failing build and its rebuild, and the result is the
(still failing) build outcome. (b) Under major version 0, if no pinned
migrate invocation succeeds, the backward probe scans minors M..1, the
forward replay never runs, and the rebuild still fails. -/
theorem c6_no_migration_escape :
    (∀ (ex : Exec) (info : VerylBuildInfo) (migrated : Bool) (tr : List Cmd),
      info.version.major ≠ 0 →
      (∀ tr2, ex tr2 (Cmd.build info.veryl_root info.version_arg info.compare) = false) →
      veryl_build ex info migrated tr =
        (false, true,
          tr ++ [Cmd.build info.veryl_root info.version_arg info.compare,
            Cmd.build info.veryl_root info.version_arg info.compare])) ∧
    (∀ (ex : Exec) (info : VerylBuildInfo) (migrated : Bool) (tr : List Cmd),
      info.version.major = 0 →
      (∀ tr2 j, 0 < j → ex tr2 (Cmd.migrateTo info.veryl_root j) = false) →
      (∀ tr2, ex tr2 (Cmd.build info.veryl_root info.version_arg info.compare) = false) →
      veryl_build ex info migrated tr =
        (false, true,
          tr ++ [Cmd.build info.veryl_root info.version_arg info.compare]
            ++ probeSeq info.veryl_root info.version.minor 1
            ++ [Cmd.build info.veryl_root info.version_arg info.compare])) := by
  constructor
  · intro ex info migrated tr hmaj hfail
    simp only [veryl_build, runCmd, hfail, migrate, hmaj, Bool.false_eq_true,
      if_false, List.append_assoc, List.singleton_append]
  · intro ex info migrated tr hmaj hmig hfail
    have hprobe := probeDown_none ex info.veryl_root hmig info.version.minor
      (tr ++ [Cmd.build info.veryl_root info.version_arg info.compare])
    simp only [veryl_build, runCmd, hfail, migrate, hmaj, if_true,
      Bool.false_eq_true, if_false, hprobe]

/-- Witness for C6: a stable 1.0.0 compiler with a failing build reruns the
build once with no migrate; an unstable 0.2.0 compiler whose migrates all
fail probes 2, 1 and the rebuild still fails. -/
theorem c6_no_migration_escape_witness :
    veryl_build (fun _ _ => false) ⟨⟨1, 0, 0⟩, "r".data, none, false⟩ false [] =
      (false, true,
        [Cmd.build "r".data none false, Cmd.build "r".data none false]) ∧
    veryl_build (fun _ _ => false) ⟨⟨0, 2, 0⟩, "s".data, none, false⟩ false [] =
      (false, true,
        [Cmd.build "s".data none false,
          Cmd.migrateTo "s".data 2, Cmd.migrateTo "s".data 1,
          Cmd.build "s".data none false]) := by
  constructor
  · have h := c6_no_migration_escape.1 (fun _ _ => false)
      ⟨⟨1, 0, 0⟩, "r".data, none, false⟩ false [] (by decide) (fun _ => rfl)
    rw [h]
    rfl
  · have h := c6_no_migration_escape.2 (fun _ _ => false)
      ⟨⟨0, 2, 0⟩, "s".data, none, false⟩ false [] rfl
      (fun _ _ _ => rfl) (fun _ => rfl)
    rw [h]
    rfl

/-- `OptCheck` (crate root): options of the `check` subcommand used by
`Db::build` (`--all`, target-version pin, reference-version pin; the binary
path override only selects the external binary and is dropped). -/
structure OptCheck where
  all : Bool
  veryl_version : Option Str
  ref_version : Option Str

/-- The run's external environment: the compiler oracle, the outcome of
`git rev-parse HEAD` per project URL (`none` models the `Err` branch), the
`Veryl.toml` build roots found by the checkout walk, and the checkout
directory derived from the URL path. -/
structure BuildEnv where
  exec : Exec
  rev : Str → Option Str
  roots : Str → List Str
  prjDir : Str → Str

/-- The `+{version}` pin argument from the check options
(src/db.rs lines 417-422). -/
def versionArgOf (opt : Option OptCheck) : Option Str :=
  (opt.bind (fun o => o.veryl_version)).map (fun x => '+' :: x)

/-- The failing root's path relative to the project directory
(src/db.rs lines 450-454): `.` for the project directory itself, else
`strip_prefix`; `none` models the `unwrap` panic on a foreign path. -/
def relPath (dir root : Str) : Option Str :=
  if root = dir then some ".".data
  else if strStartsWith root (dir ++ "/".data) then
    some (root.drop (dir ++ "/".data).length)
  else none

/-- The body of the per-root loop for one root (src/db.rs lines 417-446):
the target build; when a reference pin is supplied, additionally the
reference build (result discarded) and the final comparison build whose
result is authoritative. Returns (result, migrated flag, trace). -/
def rootStep (ex : Exec) (opt : Option OptCheck) (version : SemVer)
    (root : Str) (migrated : Bool) (tr : List Cmd) :
    Bool × Bool × List Cmd :=
  let va := versionArgOf opt
  let info : VerylBuildInfo := ⟨version, root, va, false⟩
  let first := veryl_build ex info migrated tr
  match opt.bind (fun o => o.ref_version) with
  | some rv =>
    let second :=
      veryl_build ex { info with version_arg := some ('+' :: rv) }
        first.2.1 first.2.2
    veryl_build ex { info with compare := true } second.2.1 second.2.2
  | none => first

/-- The per-root build loop of `Db::build` (src/db.rs lines 416-457),
threading the migrated flag, the running AND of root results, and the
collected failing relative paths. -/
def stepRoots (ex : Exec) (opt : Option OptCheck) (version : SemVer)
    (dir : Str) :
    List Str → List Cmd → Bool → Bool → List Str →
    Option (Bool × Bool × List Str × List Cmd)
  | [], tr, migrated, prjResult, failPaths =>
    some (prjResult, migrated, failPaths, tr)
  | root :: rest, tr, migrated, prjResult, failPaths =>
    let after := rootStep ex opt version root migrated tr
    if after.1 then
      stepRoots ex opt version dir rest after.2.2 after.2.1 prjResult failPaths
    else
      match relPath dir root with
      | none => none
      | some p =>
        stepRoots ex opt version dir rest after.2.2 after.2.1 false
          (failPaths ++ [p])

/-- The per-project body of `Db::build`'s loop (src/db.rs lines 349-482):
known-failure skip in check mode; clone and rev-parse (a rev-parse error is
logged as a failing BuildLog with empty revision); the idempotence skip in
update mode; then the per-root build loop producing this run's BuildLog.
Returns the optional BuildLog and the compiler trace; `none` models a panic. -/
def stepProject (opt : Option OptCheck) (version : SemVer) (env : BuildEnv)
    (prj : Project) (tr : List Cmd) : Option (Option BuildLog × List Cmd) :=
  if (match opt, prj.build_logs.getLast? with
      | some o, some l => !l.result && !o.all
      | _, _ => false) then
    some (none, tr)
  else
    match env.rev prj.url with
    | none => some (some ⟨[], version, false⟩, tr)
    | some rev =>
      if opt.isNone &&
          (match prj.build_logs.getLast? with
            | some l => decide (l.rev = rev) && decide (l.veryl_version = version)
            | none => false) then
        some (none, tr)
      else
        match stepRoots env.exec opt version (env.prjDir prj.url)
            (env.roots prj.url) tr false true [] with
        | none => none
        | some (prjResult, _, _, tr2) =>
          some (some ⟨rev, version, prjResult⟩, tr2)

/-- The per-project loop of `Db::build` over the sorted project list,
accumulating this run's BuildLogs in a local list (nothing is written to the
registry here), the compiler trace, and the processed ids in order. -/
def processAll (opt : Option OptCheck) (version : SemVer) (env : BuildEnv) :
    List (Nat × Project) → List Cmd →
    Option (List (Nat × BuildLog) × List Cmd × List Nat)
  | [], tr => some ([], tr, [])
  | (i, p) :: rest, tr =>
    match stepProject opt version env p tr with
    | none => none
    | some (optLog, tr2) =>
      match processAll opt version env rest tr2 with
      | none => none
      | some (logs, tr3, ord) =>
        some ((match optLog with
          | some lg => (i, lg) :: logs
          | none => logs), tr3, i :: ord)

/-- `HashMap::entry(id).and_modify(f)`: modify the entry with the given key. -/
def modifyKV (ps : List (Nat × Project)) (k : Nat) (f : Project → Project) :
    List (Nat × Project) :=
  ps.map (fun kv => if kv.1 = k then (kv.1, f kv.2) else kv)

/-- The commit loop of `Db::build` (src/db.rs lines 484-488): after the whole
per-project loop, append each collected BuildLog to its project's history. -/
def commitLogs : List (Nat × Project) → List (Nat × BuildLog) →
    List (Nat × Project)
  | ps, [] => ps
  | ps, (i, lg) :: rest =>
    commitLogs
      (modifyKV ps i (fun p => { p with build_logs := p.build_logs ++ [lg] }))
      rest

/-- `HashMap` lookup on the registry (first entry with the key). -/
def lookupKV : List (Nat × Project) → Nat → Option Project
  | [], _ => none
  | (k, v) :: rest, i => if k = i then some v else lookupKV rest i

/-- Ordering of registry entries by project id. -/
def projLE (a b : Nat × Project) : Prop := a.1 ≤ b.1

instance : DecidableRel projLE := fun a b => Nat.decLe a.1 b.1

instance : IsTotal (Nat × Project) projLE := ⟨fun a b => Nat.le_total a.1 b.1⟩

instance : IsTrans (Nat × Project) projLE := ⟨fun _ _ _ h h2 => Nat.le_trans h h2⟩

/-- `projects.sort_by_key(|x| x.0)` in `Db::build` (src/db.rs lines 345-346):
the registry snapshot sorted by ascending id. -/
def sortProjects (ps : List (Nat × Project)) : List (Nat × Project) :=
  List.insertionSort projLE ps

/-- Outcome of one `Db::build` run: the updated registry, the compiler trace,
the run's collected BuildLogs, and the processed project ids in order. -/
structure BuildResult where
  projects : List (Nat × Project)
  trace : List Cmd
  logs : List (Nat × BuildLog)
  order : List Nat
deriving Repr

/-- `Db::build` (src/db.rs lines 306-491) restricted to its effect on the
project registry: sort the registry snapshot by id, run the per-project loop
accumulating BuildLogs locally, then batch-commit them to the registry.
Workspace cleanup and compiler download/lookup are external side effects. -/
def buildRun (ps : List (Nat × Project)) (opt : Option OptCheck)
    (version : SemVer) (env : BuildEnv) (tr : List Cmd) : Option BuildResult :=
  match processAll opt version env (sortProjects ps) tr with
  | none => none
  | some (logs, tr2, ord) => some ⟨commitLogs ps logs, tr2, logs, ord⟩

/-- The per-project loop visits exactly the given entries, in order. -/
theorem processAll_order (opt : Option OptCheck) (version : SemVer)
    (env : BuildEnv) :
    ∀ l tr logs tr2 ord,
      processAll opt version env l tr = some (logs, tr2, ord) →
      ord = l.map Prod.fst := by
  intro l
  induction l with
  | nil =>
    intro tr logs tr2 ord h
    simp only [processAll, Option.some.injEq, Prod.mk.injEq] at h
    obtain ⟨_, _, h3⟩ := h
    simp [← h3]
  | cons kv rest ih =>
    obtain ⟨i, p⟩ := kv
    intro tr logs tr2 ord h
    simp only [processAll] at h
    cases hs : stepProject opt version env p tr with
    | none =>
      simp only [hs] at h
      exact Option.noConfusion h
    | some pr =>
      obtain ⟨optLog, tr1⟩ := pr
      simp only [hs] at h
      cases hp : processAll opt version env rest tr1 with
      | none =>
        simp only [hp] at h
        exact Option.noConfusion h
      | some triple =>
        obtain ⟨logs1, tr3, ord1⟩ := triple
        simp only [hp, Option.some.injEq, Prod.mk.injEq] at h
        obtain ⟨_, _, h3⟩ := h
        rw [← h3, List.map_cons, ih tr1 logs1 tr3 ord1 hp]

/-- The keys of the collected BuildLogs form a sublist of the processed ids:
each iteration contributes at most one log, keyed by its own project id. -/
theorem processAll_logs_sub (opt : Option OptCheck) (version : SemVer)
    (env : BuildEnv) :
    ∀ l tr logs tr2 ord,
      processAll opt version env l tr = some (logs, tr2, ord) →
      List.Sublist (logs.map Prod.fst) (l.map Prod.fst) := by
  intro l
  induction l with
  | nil =>
    intro tr logs tr2 ord h
    simp only [processAll, Option.some.injEq, Prod.mk.injEq] at h
    obtain ⟨h1, _, _⟩ := h
    simp [← h1]
  | cons kv rest ih =>
    obtain ⟨i, p⟩ := kv
    intro tr logs tr2 ord h
    simp only [processAll] at h
    cases hs : stepProject opt version env p tr with
    | none =>
      simp only [hs] at h
      exact Option.noConfusion h
    | some pr =>
      obtain ⟨optLog, tr1⟩ := pr
      simp only [hs] at h
      cases hp : processAll opt version env rest tr1 with
      | none =>
        simp only [hp] at h
        exact Option.noConfusion h
      | some triple =>
        obtain ⟨logs1, tr3, ord1⟩ := triple
        simp only [hp, Option.some.injEq, Prod.mk.injEq] at h
        obtain ⟨h1, _, _⟩ := h
        cases optLog with
        | none =>
          rw [← h1]
          exact List.Sublist.cons i (ih tr1 logs1 tr3 ord1 hp)
        | some lg =>
          rw [← h1]
          exact List.Sublist.cons₂ i (ih tr1 logs1 tr3 ord1 hp)

/-- C8: in every run and both modes, the per-project loop iterates the
registry in ascending-id order: the processed-id sequence is the id-sorted
registry's key sequence, and (keys being unique) it is strictly increasing,
so a project with a smaller id is processed before one with a larger id. -/
theorem c8_ascending_processing_order (ps : List (Nat × Project))
    (opt : Option OptCheck) (version : SemVer) (env : BuildEnv)
    (tr : List Cmd) (res : BuildResult)
    (hnodup : (ps.map Prod.fst).Nodup)
    (hrun : buildRun ps opt version env tr = some res) :
    res.order = (sortProjects ps).map Prod.fst ∧
    res.order.Pairwise (· < ·) := by
  simp only [buildRun] at hrun
  cases hp : processAll opt version env (sortProjects ps) tr with
  | none =>
    simp only [hp] at hrun
    exact Option.noConfusion hrun
  | some triple =>
    obtain ⟨logs, tr2, ord⟩ := triple
    simp only [hp, Option.some.injEq] at hrun
    have hord : ord = (sortProjects ps).map Prod.fst :=
      processAll_order opt version env (sortProjects ps) tr logs tr2 ord hp
    have hresord : res.order = ord := by rw [← hrun]
    have hperm : List.Perm (sortProjects ps) ps :=
      List.perm_insertionSort projLE ps
    have hkeysperm : List.Perm ((sortProjects ps).map Prod.fst) (ps.map Prod.fst) :=
      hperm.map Prod.fst
    have hnodup2 : ((sortProjects ps).map Prod.fst).Nodup :=
      (List.Perm.nodup_iff hkeysperm).mpr hnodup
    have hsorted : List.Pairwise projLE (sortProjects ps) :=
      List.sorted_insertionSort projLE ps
    have hle : ((sortProjects ps).map Prod.fst).Pairwise (· ≤ ·) :=
      List.Pairwise.map Prod.fst (fun _ _ h => h) hsorted
    have hlt : ((sortProjects ps).map Prod.fst).Pairwise (· < ·) := by
      have hand := List.Pairwise.and hle hnodup2
      exact hand.imp (fun h => Nat.lt_of_le_of_ne h.1 h.2)
    exact ⟨hresord.trans hord, by rw [hresord, hord]; exact hlt⟩

/-- Witness for C8: a registry listed out of id order ((1, v) before (0, u))
is processed as [0, 1], which is strictly increasing. -/
theorem c8_ascending_processing_order_witness :
    (⟨[(1, ⟨"v".data, [⟨[], ⟨0, 1, 0⟩, false⟩]⟩),
        (0, ⟨"u".data, [⟨[], ⟨0, 1, 0⟩, false⟩]⟩)],
      [],
      [(0, ⟨[], ⟨0, 1, 0⟩, false⟩), (1, ⟨[], ⟨0, 1, 0⟩, false⟩)],
      [0, 1]⟩ : BuildResult).order.Pairwise (· < ·) :=
  (c8_ascending_processing_order
    [(1, ⟨"v".data, []⟩), (0, ⟨"u".data, []⟩)] none ⟨0, 1, 0⟩
    ⟨fun _ _ => true, fun _ => none, fun _ => [], fun _ => []⟩ []
    ⟨[(1, ⟨"v".data, [⟨[], ⟨0, 1, 0⟩, false⟩]⟩),
      (0, ⟨"u".data, [⟨[], ⟨0, 1, 0⟩, false⟩]⟩)],
      [],
      [(0, ⟨[], ⟨0, 1, 0⟩, false⟩), (1, ⟨[], ⟨0, 1, 0⟩, false⟩)],
      [0, 1]⟩
    (by decide) rfl).2

/-- Unfolding `modifyKV` over a cons cell. -/
theorem modifyKV_cons (k : Nat) (v : Project) (rest : List (Nat × Project))
    (j : Nat) (f : Project → Project) :
    modifyKV ((k, v) :: rest) j f =
      (if k = j then (k, f v) else (k, v)) :: modifyKV rest j f := by
  simp only [modifyKV, List.map_cons]

/-- Modifying one key leaves lookups of other keys unchanged. -/
theorem lookupKV_modifyKV (ps : List (Nat × Project)) (j i : Nat)
    (f : Project → Project) (hne : j ≠ i) :
    lookupKV (modifyKV ps j f) i = lookupKV ps i := by
  induction ps with
  | nil => rfl
  | cons kv rest ih =>
    obtain ⟨k, v⟩ := kv
    rw [modifyKV_cons]
    by_cases hk : k = j
    · rw [if_pos hk]
      have hki : k ≠ i := by rw [hk]; exact hne
      simp [lookupKV, hki, ih]
    · rw [if_neg hk]
      by_cases hki : k = i
      · simp [lookupKV, hki]
      · simp [lookupKV, hki, ih]

/-- Modifying a key maps its (first) looked-up value. -/
theorem lookupKV_modifyKV_self (ps : List (Nat × Project)) (i : Nat)
    (f : Project → Project) :
    lookupKV (modifyKV ps i f) i = (lookupKV ps i).map f := by
  induction ps with
  | nil => rfl
  | cons kv rest ih =>
    obtain ⟨k, v⟩ := kv
    rw [modifyKV_cons]
    by_cases hk : k = i
    · rw [if_pos hk]
      subst hk
      simp [lookupKV]
    · rw [if_neg hk]
      simp [lookupKV, hk, ih]

/-- The batch commit appends to each project exactly the logs collected for
its id, in order. -/
theorem lookupKV_commitLogs :
    ∀ (logs : List (Nat × BuildLog)) (ps : List (Nat × Project)) (i : Nat),
      lookupKV (commitLogs ps logs) i =
        (lookupKV ps i).map (fun p =>
          { p with build_logs :=
              p.build_logs ++ (logs.filter (fun e => decide (e.1 = i))).map Prod.snd }) := by
  intro logs
  induction logs with
  | nil =>
    intro ps i
    simp only [commitLogs, List.filter_nil, List.map_nil, List.append_nil]
    cases lookupKV ps i <;> rfl
  | cons e rest ih =>
    obtain ⟨j, lg⟩ := e
    intro ps i
    simp only [commitLogs]
    rw [ih]
    by_cases hj : j = i
    · subst hj
      rw [lookupKV_modifyKV_self]
      cases lookupKV ps j with
      | none => simp
      | some p => simp [List.filter_cons, List.append_assoc]
    · rw [lookupKV_modifyKV ps j i _ hj]
      have hfil : List.filter (fun e => decide (e.1 = i)) ((j, lg) :: rest)
          = List.filter (fun e => decide (e.1 = i)) rest := by
        simp [List.filter_cons, hj]
      rw [hfil]

/-- No log is collected for an id outside the key list. -/
theorem filter_key_notmem (logs : List (Nat × BuildLog)) (i : Nat)
    (h : i ∉ logs.map Prod.fst) :
    logs.filter (fun e => decide (e.1 = i)) = [] := by
  induction logs with
  | nil => rfl
  | cons e rest ih =>
    obtain ⟨j, lg⟩ := e
    simp only [List.map_cons, List.mem_cons, not_or] at h
    obtain ⟨hj, hrest⟩ := h
    have hji : ¬ (j = i) := fun hh => hj hh.symm
    simp [List.filter_cons, hji, ih hrest]

/-- With unique log keys, at most one log is collected per id. -/
theorem filter_key_len (logs : List (Nat × BuildLog)) (i : Nat)
    (hnodup : (logs.map Prod.fst).Nodup) :
    (logs.filter (fun e => decide (e.1 = i))).length ≤ 1 := by
  induction logs with
  | nil => simp
  | cons e rest ih =>
    obtain ⟨j, lg⟩ := e
    simp only [List.map_cons, List.nodup_cons] at hnodup
    obtain ⟨hj, hrest⟩ := hnodup
    by_cases hji : j = i
    · subst hji
      simp only [List.filter_cons, decide_eq_true_eq, if_pos rfl, List.length_cons]
      rw [filter_key_notmem rest j hj]
      simp
    · simp only [List.filter_cons, decide_eq_true_eq, if_neg hji]
      exact ih hrest

/-- With unique registry keys, membership determines lookup. -/
theorem lookupKV_of_mem_nodup (ps : List (Nat × Project)) (i : Nat)
    (p : Project) (hnodup : (ps.map Prod.fst).Nodup) (hmem : (i, p) ∈ ps) :
    lookupKV ps i = some p := by
  induction ps with
  | nil => cases hmem
  | cons kv rest ih =>
    obtain ⟨k, v⟩ := kv
    simp only [List.map_cons, List.nodup_cons] at hnodup
    obtain ⟨hk, hrest⟩ := hnodup
    rcases List.mem_cons.mp hmem with h | h
    · obtain ⟨h1, h2⟩ := Prod.mk.injEq .. ▸ h
      simp [lookupKV, h1.symm, h2]
    · have hki : k ≠ i := by
        intro hh
        subst hh
        exact hk (List.mem_map.mpr ⟨(k, p), h, rfl⟩)
      simp only [lookupKV, hki, if_neg hki]
      exact ih hrest h

/-- C9: the run is a batch commit: the per-project loop only accumulates this
run's BuildLogs (at most one per project: the collected log keys are unique),
the final registry is the input registry with those logs appended in one pass
after the loop, and every project's history grows by at most one entry. -/
theorem c9_batch_commit_one_log (ps : List (Nat × Project))
    (opt : Option OptCheck) (version : SemVer) (env : BuildEnv)
    (tr : List Cmd) (res : BuildResult)
    (hnodup : (ps.map Prod.fst).Nodup)
    (hrun : buildRun ps opt version env tr = some res) :
    res.projects = commitLogs ps res.logs ∧
    (res.logs.map Prod.fst).Nodup ∧
    (∀ i prj, (i, prj) ∈ ps →
      ∃ tail, lookupKV res.projects i =
          some ⟨prj.url, prj.build_logs ++ tail⟩ ∧ tail.length ≤ 1) := by
  simp only [buildRun] at hrun
  cases hp : processAll opt version env (sortProjects ps) tr with
  | none =>
    simp only [hp] at hrun
    exact Option.noConfusion hrun
  | some triple =>
    obtain ⟨logs, tr2, ord⟩ := triple
    simp only [hp, Option.some.injEq] at hrun
    subst hrun
    have hkeysperm : List.Perm ((sortProjects ps).map Prod.fst) (ps.map Prod.fst) :=
      (List.perm_insertionSort projLE ps).map Prod.fst
    have hnodup2 : ((sortProjects ps).map Prod.fst).Nodup :=
      (List.Perm.nodup_iff hkeysperm).mpr hnodup
    have hlogsnodup : (logs.map Prod.fst).Nodup :=
      List.Nodup.sublist
        (processAll_logs_sub opt version env (sortProjects ps) tr logs tr2 ord hp)
        hnodup2
    refine ⟨rfl, hlogsnodup, ?_⟩
    intro i prj hmem
    refine ⟨(logs.filter (fun e => decide (e.1 = i))).map Prod.snd, ?_, ?_⟩
    · show lookupKV (commitLogs ps logs) i = _
      rw [lookupKV_commitLogs logs ps i,
        lookupKV_of_mem_nodup ps i prj hnodup hmem]
      rfl
    · rw [List.length_map]
      exact filter_key_len logs i hlogsnodup

/-- Witness for C9 on a single-project registry: the history grows by exactly
one log, appended by the batch commit. -/
theorem c9_batch_commit_one_log_witness :
    ∃ tail,
      lookupKV (⟨[(0, ⟨"u".data, [⟨[], ⟨0, 1, 0⟩, false⟩]⟩)], [],
          [(0, ⟨[], ⟨0, 1, 0⟩, false⟩)], [0]⟩ : BuildResult).projects 0 =
        some ⟨"u".data, [] ++ tail⟩ ∧ tail.length ≤ 1 :=
  (c9_batch_commit_one_log [(0, ⟨"u".data, []⟩)] none ⟨0, 1, 0⟩
    ⟨fun _ _ => true, fun _ => none, fun _ => [], fun _ => []⟩ []
    ⟨[(0, ⟨"u".data, [⟨[], ⟨0, 1, 0⟩, false⟩]⟩)], [],
      [(0, ⟨[], ⟨0, 1, 0⟩, false⟩)], [0]⟩
    (by decide) rfl).2.2 0 ⟨"u".data, []⟩ (List.mem_singleton.mpr rfl)

/-- The idempotence check of `Db::build` (src/db.rs lines 395-402): in update
mode, when the resolved head revision and the compiler version both match the
latest stored BuildLog, the project is skipped with no compiler invocation
and no new log. -/
theorem stepProject_skip (version : SemVer) (env : BuildEnv) (prj : Project)
    (log : BuildLog)
    (hlast : prj.build_logs.getLast? = some log)
    (hrev : env.rev prj.url = some log.rev)
    (hver : log.veryl_version = version) :
    ∀ tr, stepProject none version env prj tr = some (none, tr) := by
  intro tr
  simp [stepProject, hrev, hlast, hver]

/-- A project whose step is a skip contributes no log keyed by its id. -/
theorem processAll_skip_no_log (opt : Option OptCheck) (version : SemVer)
    (env : BuildEnv) :
    ∀ l tr logs tr2 ord i prj,
      (l.map Prod.fst).Nodup → (i, prj) ∈ l →
      (∀ tr3, stepProject opt version env prj tr3 = some (none, tr3)) →
      processAll opt version env l tr = some (logs, tr2, ord) →
      i ∉ logs.map Prod.fst := by
  intro l
  induction l with
  | nil =>
    intro tr logs tr2 ord i prj _ hmem _ _
    cases hmem
  | cons kv rest ih =>
    obtain ⟨k, p⟩ := kv
    intro tr logs tr2 ord i prj hnodup hmem hskip h
    simp only [List.map_cons, List.nodup_cons] at hnodup
    obtain ⟨hk, hrest⟩ := hnodup
    rcases List.mem_cons.mp hmem with hh | hh
    · obtain ⟨h1, h2⟩ := Prod.mk.injEq .. ▸ hh
      have hstep := hskip tr
      rw [h2] at hstep
      simp only [processAll, hstep] at h
      cases hp : processAll opt version env rest tr with
      | none =>
        simp only [hp] at h
        exact Option.noConfusion h
      | some triple =>
        obtain ⟨logs1, tr3, ord1⟩ := triple
        simp only [hp, Option.some.injEq, Prod.mk.injEq] at h
        obtain ⟨hl, _, _⟩ := h
        rw [← hl, h1]
        intro hin
        exact hk (List.Sublist.subset
          (processAll_logs_sub opt version env rest tr logs1 tr3 ord1 hp) hin)
    · have hi : i ∈ rest.map Prod.fst := List.mem_map.mpr ⟨(i, prj), hh, rfl⟩
      have hki : k ≠ i := fun hh2 => hk (hh2 ▸ hi)
      simp only [processAll] at h
      cases hs : stepProject opt version env p tr with
      | none =>
        simp only [hs] at h
        exact Option.noConfusion h
      | some pr =>
        obtain ⟨optLog, tr1⟩ := pr
        simp only [hs] at h
        cases hp : processAll opt version env rest tr1 with
        | none =>
          simp only [hp] at h
          exact Option.noConfusion h
        | some triple =>
          obtain ⟨logs1, tr3, ord1⟩ := triple
          simp only [hp, Option.some.injEq, Prod.mk.injEq] at h
          obtain ⟨hl, _, _⟩ := h
          have hih := ih tr1 logs1 tr3 ord1 i prj hrest hh hskip hp
          cases optLog with
          | none =>
            rw [← hl]
            exact hih
          | some lg =>
            rw [← hl]
            simp only [List.map_cons, List.mem_cons, not_or]
            exact ⟨fun hh2 => hki hh2.symm, hih⟩

/-- C1: in a FullRefresh (update-mode) run, a project whose resolved head
revision equals its latest stored BuildLog's revision and whose compiler
version matches that log's version is skipped entirely: its per-project step
performs no compiler invocation (trace unchanged) and emits no log, and the
final registry still holds the project unchanged — its BuildLog history (in
particular one of length 1) keeps its length. -/
theorem c1_fullrefresh_idempotence_skip (ps : List (Nat × Project))
    (version : SemVer) (env : BuildEnv) (tr : List Cmd)
    (i : Nat) (prj : Project) (log : BuildLog) (res : BuildResult)
    (hnodup : (ps.map Prod.fst).Nodup)
    (hmem : (i, prj) ∈ ps)
    (hlast : prj.build_logs.getLast? = some log)
    (hrev : env.rev prj.url = some log.rev)
    (hver : log.veryl_version = version)
    (hrun : buildRun ps none version env tr = some res) :
    (∀ tr2, stepProject none version env prj tr2 = some (none, tr2)) ∧
    lookupKV res.projects i = some prj := by
  have hskip := stepProject_skip version env prj log hlast hrev hver
  refine ⟨hskip, ?_⟩
  simp only [buildRun] at hrun
  cases hp : processAll none version env (sortProjects ps) tr with
  | none =>
    simp only [hp] at hrun
    exact Option.noConfusion hrun
  | some triple =>
    obtain ⟨logs, tr2, ord⟩ := triple
    simp only [hp, Option.some.injEq] at hrun
    subst hrun
    have hperm : List.Perm (sortProjects ps) ps :=
      List.perm_insertionSort projLE ps
    have hmem2 : (i, prj) ∈ sortProjects ps := hperm.mem_iff.mpr hmem
    have hnodup2 : ((sortProjects ps).map Prod.fst).Nodup :=
      (List.Perm.nodup_iff (hperm.map Prod.fst)).mpr hnodup
    have hnolog : i ∉ logs.map Prod.fst :=
      processAll_skip_no_log none version env (sortProjects ps) tr logs tr2 ord
        i prj hnodup2 hmem2 hskip hp
    show lookupKV (commitLogs ps logs) i = some prj
    rw [lookupKV_commitLogs logs ps i,
      lookupKV_of_mem_nodup ps i prj hnodup hmem,
      filter_key_notmem logs i hnolog]
    simp

/-- Witness for C1: latest log {rev "abc", 0.5.0, pass} and head still "abc"
under compiler 0.5.0: the step is a no-op and the history stays length 1. -/
theorem c1_fullrefresh_idempotence_skip_witness :
    stepProject none ⟨0, 5, 0⟩
        ⟨fun _ _ => false, fun _ => some "abc".data, fun _ => [], fun _ => []⟩
        ⟨"u".data, [⟨"abc".data, ⟨0, 5, 0⟩, true⟩]⟩ [] = some (none, []) ∧
    lookupKV (⟨[(0, ⟨"u".data, [⟨"abc".data, ⟨0, 5, 0⟩, true⟩]⟩)], [], [],
        [0]⟩ : BuildResult).projects 0 =
      some ⟨"u".data, [⟨"abc".data, ⟨0, 5, 0⟩, true⟩]⟩ :=
  have h := c1_fullrefresh_idempotence_skip
    [(0, ⟨"u".data, [⟨"abc".data, ⟨0, 5, 0⟩, true⟩]⟩)] ⟨0, 5, 0⟩
    ⟨fun _ _ => false, fun _ => some "abc".data, fun _ => [], fun _ => []⟩ []
    0 ⟨"u".data, [⟨"abc".data, ⟨0, 5, 0⟩, true⟩]⟩ ⟨"abc".data, ⟨0, 5, 0⟩, true⟩
    ⟨[(0, ⟨"u".data, [⟨"abc".data, ⟨0, 5, 0⟩, true⟩]⟩)], [], [], [0]⟩
    (by decide) (List.mem_singleton.mpr rfl) rfl rfl rfl rfl
  ⟨h.1 [], h.2⟩

/-- A history-independent compiler oracle (deterministic command outcomes). -/
def statelessEx (f : Cmd → Bool) : Exec := fun _ c => f c

/-- Under a stateless oracle, `veryl_build`'s authoritative result is the
oracle's answer for the build command (the rebuild after a migrate runs the
same command). -/
theorem veryl_build_fst_stateless (f : Cmd → Bool) (info : VerylBuildInfo)
    (migrated : Bool) (tr : List Cmd) :
    (veryl_build (statelessEx f) info migrated tr).1 =
      f (Cmd.build info.veryl_root info.version_arg info.compare) := by
  cases hok : f (Cmd.build info.veryl_root info.version_arg info.compare) <;>
    simp [veryl_build, runCmd, statelessEx, hok]

/-- The result of one independent build unit under a stateless oracle
(src/db.rs lines 424-446): the target build, or — when a reference pin is
supplied — the final comparison build, both via `veryl_build`. -/
def rootResult (f : Cmd → Bool) (opt : Option OptCheck) (version : SemVer)
    (root : Str) : Bool :=
  match opt.bind (fun o => o.ref_version) with
  | some _ =>
    (veryl_build (statelessEx f) ⟨version, root, versionArgOf opt, true⟩
      false []).1
  | none =>
    (veryl_build (statelessEx f) ⟨version, root, versionArgOf opt, false⟩
      false []).1

/-- The backward probe only appends to the trace. -/
theorem probeDown_trace (ex : Exec) (root : Str) :
    ∀ m tr, ∃ s, (probeDown ex root m tr).2 = tr ++ s := by
  intro m
  induction m with
  | zero => intro tr; exact ⟨[], by simp [probeDown]⟩
  | succ m2 ih =>
    intro tr
    cases hok : ex tr (Cmd.migrateTo root (m2 + 1)) with
    | true =>
      exact ⟨[Cmd.migrateTo root (m2 + 1)], by simp [probeDown, runCmd, hok]⟩
    | false =>
      obtain ⟨s2, hs2⟩ := ih (tr ++ [Cmd.migrateTo root (m2 + 1)])
      refine ⟨[Cmd.migrateTo root (m2 + 1)] ++ s2, ?_⟩
      simp only [probeDown, runCmd, hok, Bool.false_eq_true, if_false]
      rw [hs2]
      simp

/-- `migrate` only appends to the trace. -/
theorem migrate_trace (ex : Exec) (v : SemVer) (root : Str) (tr : List Cmd) :
    ∃ s, migrate ex v root tr = tr ++ s := by
  by_cases hm : v.major = 0
  · simp only [migrate, hm, if_true]
    obtain ⟨s1, hs1⟩ := probeDown_trace ex root v.minor tr
    rcases hpd : probeDown ex root v.minor tr with ⟨res, tr2⟩
    rw [hpd] at hs1
    simp only at hs1
    cases res with
    | none => exact ⟨s1, hs1⟩
    | some k =>
      show ∃ s, replayUp ex root v.minor k tr2 = tr ++ s
      rw [replayUp_eq ex root v.minor (v.minor + 1 - k) k tr2 rfl, hs1]
      exact ⟨s1 ++ (List.range' k (v.minor + 1 - k)).map (Cmd.migrateTo root),
        by simp⟩
  · exact ⟨[], by simp [migrate, hm]⟩

/-- `veryl_build` appends its build command first, then whatever migration
and rebuild add. -/
theorem veryl_build_trace (ex : Exec) (info : VerylBuildInfo)
    (migrated : Bool) (tr : List Cmd) :
    ∃ s, (veryl_build ex info migrated tr).2.2 =
      tr ++ Cmd.build info.veryl_root info.version_arg info.compare :: s := by
  cases hok : ex tr (Cmd.build info.veryl_root info.version_arg info.compare) with
  | true => exact ⟨[], by simp [veryl_build, runCmd, hok]⟩
  | false =>
    obtain ⟨s1, hs1⟩ := migrate_trace ex info.version info.veryl_root
      (tr ++ [Cmd.build info.veryl_root info.version_arg info.compare])
    refine ⟨s1 ++ [Cmd.build info.veryl_root info.version_arg info.compare], ?_⟩
    simp only [veryl_build, runCmd, hok, Bool.false_eq_true, if_false]
    rw [hs1]
    simp

/-- Under a stateless oracle, a root's loop-body result is `rootResult`. -/
theorem rootStep_fst (f : Cmd → Bool) (opt : Option OptCheck)
    (version : SemVer) (root : Str) (migrated : Bool) (tr : List Cmd) :
    (rootStep (statelessEx f) opt version root migrated tr).1 =
      rootResult f opt version root := by
  cases href : opt.bind (fun o => o.ref_version) with
  | none =>
    simp only [rootStep, rootResult, href]
    rw [veryl_build_fst_stateless, veryl_build_fst_stateless]
  | some rv =>
    simp only [rootStep, rootResult, href]
    rw [veryl_build_fst_stateless, veryl_build_fst_stateless]

/-- A root's loop body appends its target build command first. -/
theorem rootStep_trace (ex : Exec) (opt : Option OptCheck) (version : SemVer)
    (root : Str) (migrated : Bool) (tr : List Cmd) :
    ∃ s, (rootStep ex opt version root migrated tr).2.2 =
      tr ++ Cmd.build root (versionArgOf opt) false :: s := by
  cases href : opt.bind (fun o => o.ref_version) with
  | none =>
    simp only [rootStep, href]
    exact veryl_build_trace ex ⟨version, root, versionArgOf opt, false⟩ migrated tr
  | some rv =>
    simp only [rootStep, href]
    obtain ⟨s1, hs1⟩ :=
      veryl_build_trace ex ⟨version, root, versionArgOf opt, false⟩ migrated tr
    obtain ⟨s2, hs2⟩ := veryl_build_trace ex
      ⟨version, root, some ('+' :: rv), false⟩
      (veryl_build ex ⟨version, root, versionArgOf opt, false⟩ migrated tr).2.1
      (veryl_build ex ⟨version, root, versionArgOf opt, false⟩ migrated tr).2.2
    obtain ⟨s3, hs3⟩ := veryl_build_trace ex
      ⟨version, root, versionArgOf opt, true⟩
      (veryl_build ex ⟨version, root, some ('+' :: rv), false⟩
        (veryl_build ex ⟨version, root, versionArgOf opt, false⟩ migrated tr).2.1
        (veryl_build ex ⟨version, root, versionArgOf opt, false⟩ migrated tr).2.2).2.1
      (veryl_build ex ⟨version, root, some ('+' :: rv), false⟩
        (veryl_build ex ⟨version, root, versionArgOf opt, false⟩ migrated tr).2.1
        (veryl_build ex ⟨version, root, versionArgOf opt, false⟩ migrated tr).2.2).2.2
    rw [hs3, hs2, hs1]
    exact ⟨s1 ++ Cmd.build root (some ('+' :: rv)) false :: s2
        ++ Cmd.build root (versionArgOf opt) true :: s3, by simp⟩

/-- Under a stateless oracle, the per-root loop computes the AND of the
per-root results into its accumulator, collects the failing roots' relative
paths in order, and runs every root's target build. -/
theorem stepRoots_stateless (f : Cmd → Bool) (opt : Option OptCheck)
    (version : SemVer) (dir : Str) :
    ∀ roots tr migrated b acc,
      (∀ r, r ∈ roots → (relPath dir r).isSome = true) →
      ∃ mig tr2,
        stepRoots (statelessEx f) opt version dir roots tr migrated b acc =
          some (b && roots.all (rootResult f opt version), mig,
            acc ++ (roots.filter
              (fun r => ! rootResult f opt version r)).filterMap (relPath dir),
            tr2) ∧
        (∀ c, c ∈ tr → c ∈ tr2) ∧
        (∀ r, r ∈ roots → Cmd.build r (versionArgOf opt) false ∈ tr2) := by
  intro roots
  induction roots with
  | nil =>
    intro tr migrated b acc hwf
    refine ⟨migrated, tr, by simp [stepRoots], fun c hc => hc, by simp⟩
  | cons root rest ih =>
    intro tr migrated b acc hwf
    have hwfrest : ∀ r, r ∈ rest → (relPath dir r).isSome = true :=
      fun r hr => hwf r (List.mem_cons_of_mem _ hr)
    obtain ⟨s, hs⟩ := rootStep_trace (statelessEx f) opt version root migrated tr
    have hfst := rootStep_fst f opt version root migrated tr
    have hmemtr : ∀ c, c ∈ tr →
        c ∈ (rootStep (statelessEx f) opt version root migrated tr).2.2 := by
      intro c hc
      rw [hs]
      exact List.mem_append_left _ hc
    have hmembc : Cmd.build root (versionArgOf opt) false ∈
        (rootStep (statelessEx f) opt version root migrated tr).2.2 := by
      rw [hs]
      exact List.mem_append_right _ (List.mem_cons_self _ _)
    cases hres : rootResult f opt version root with
    | true =>
      obtain ⟨mig, tr2, h1, h2, h3⟩ := ih
        (rootStep (statelessEx f) opt version root migrated tr).2.2
        (rootStep (statelessEx f) opt version root migrated tr).2.1
        b acc hwfrest
      refine ⟨mig, tr2, ?_, fun c hc => h2 c (hmemtr c hc), ?_⟩
      · simp only [stepRoots, hfst, hres, if_true, h1]
        simp [List.all_cons, hres, List.filter_cons]
      · intro r hr
        rcases List.mem_cons.mp hr with hh | hh
        · rw [hh]
          exact h2 _ hmembc
        · exact h3 r hh
    | false =>
      obtain ⟨p, hp⟩ := Option.isSome_iff_exists.mp
        (hwf root (List.mem_cons_self _ _))
      obtain ⟨mig, tr2, h1, h2, h3⟩ := ih
        (rootStep (statelessEx f) opt version root migrated tr).2.2
        (rootStep (statelessEx f) opt version root migrated tr).2.1
        false (acc ++ [p]) hwfrest
      refine ⟨mig, tr2, ?_, fun c hc => h2 c (hmemtr c hc), ?_⟩
      · simp only [stepRoots, hfst, hres, Bool.false_eq_true, if_false, hp, h1]
        simp [List.all_cons, hres, List.filter_cons, hp, List.append_assoc]
      · intro r hr
        rcases List.mem_cons.mp hr with hh | hh
        · rw [hh]
          exact h2 _ hmembc
        · exact h3 r hh

/-- C4: multi-root AND semantics. Under a deterministic (stateless) compiler
oracle: (1) the per-root loop builds every discovered root as an independent
unit (each root's target build command is in the trace), the project result
is the logical AND of the per-root results, and each failing root's relative
path is collected, in order; (2) for a processed project, the recorded
BuildLog carries exactly that AND as its result. -/
theorem c4_multiroot_and_semantics (f : Cmd → Bool) (opt : Option OptCheck)
    (version : SemVer) :
    (∀ dir roots tr,
      (∀ r, r ∈ roots → (relPath dir r).isSome = true) →
      ∃ mig tr2,
        stepRoots (statelessEx f) opt version dir roots tr false true [] =
          some (roots.all (rootResult f opt version), mig,
            (roots.filter
              (fun r => ! rootResult f opt version r)).filterMap (relPath dir),
            tr2) ∧
        (∀ r, r ∈ roots → Cmd.build r (versionArgOf opt) false ∈ tr2)) ∧
    (∀ (env : BuildEnv) (prj : Project) (rev : Str) (tr : List Cmd),
      env.exec = statelessEx f →
      env.rev prj.url = some rev →
      prj.build_logs = [] →
      (∀ r, r ∈ env.roots prj.url →
        (relPath (env.prjDir prj.url) r).isSome = true) →
      ∃ tr2, stepProject opt version env prj tr =
        some (some ⟨rev, version,
          (env.roots prj.url).all (rootResult f opt version)⟩, tr2)) := by
  have part1 : ∀ dir roots tr,
      (∀ r, r ∈ roots → (relPath dir r).isSome = true) →
      ∃ mig tr2,
        stepRoots (statelessEx f) opt version dir roots tr false true [] =
          some (roots.all (rootResult f opt version), mig,
            (roots.filter
              (fun r => ! rootResult f opt version r)).filterMap (relPath dir),
            tr2) ∧
        (∀ r, r ∈ roots → Cmd.build r (versionArgOf opt) false ∈ tr2) := by
    intro dir roots tr hwf
    obtain ⟨mig, tr2, h1, _, h3⟩ :=
      stepRoots_stateless f opt version dir roots tr false true [] hwf
    refine ⟨mig, tr2, ?_, h3⟩
    rw [h1]
    simp
  refine ⟨part1, ?_⟩
  intro env prj rev tr henv hrev hlogs hwf
  obtain ⟨mig, tr2, h1, _⟩ := part1 (env.prjDir prj.url) (env.roots prj.url) tr hwf
  rw [← henv] at h1
  refine ⟨tr2, ?_⟩
  cases hopt : opt with
  | none =>
    subst hopt
    simp [stepProject, hrev, hlogs, h1]
  | some o =>
    subst hopt
    simp [stepProject, hrev, hlogs, h1]

/-- Witness for C4: two roots under project directory `d`, root `d/a`
passing and root `d/b` failing: the project result is `false` and the
failure detail is the failing root's relative path `b`. -/
theorem c4_multiroot_and_semantics_witness :
    ∃ mig tr2,
      stepRoots
          (statelessEx (fun c => match c with
            | .build r _ _ => decide (r = "d/a".data)
            | .migrateTo _ _ => false))
          none ⟨0, 1, 0⟩ "d".data ["d/a".data, "d/b".data] [] false true [] =
        some (false, mig, ["b".data], tr2) ∧
      (∀ r, r ∈ ["d/a".data, "d/b".data] →
        Cmd.build r (versionArgOf none) false ∈ tr2) :=
  (c4_multiroot_and_semantics
    (fun c => match c with
      | .build r _ _ => decide (r = "d/a".data)
      | .migrateTo _ _ => false)
    none ⟨0, 1, 0⟩).1 "d".data ["d/a".data, "d/b".data] [] (by decide)
